import Mathlib

/-!
Verification development for the FolderTree generator
(`foldertree/core.py`): a shallow embedding of the tree parsers, the
format auto-detection, the structured-data importer and the filesystem
materializer, together with theorems about the behaviour of these
functions.

Strings are modelled by Lean `String`; all character-level operations
are spelled out over `List Char` so that they mirror the Python string
primitives (`str.strip`, `str.split`, `str.replace`, slicing) exactly
and stay amenable to proof.  Filesystem paths are modelled as lists of
path segments; `pathlib` joining corresponds to list append and
`str(path)` to interleaving `"/"`.
-/

namespace FolderTree

/-- Python's whitespace class (as used by `str.strip()` and the regex
class `\s` on the inputs considered here). -/
def isWS (c : Char) : Bool :=
  c == ' ' || c == '\t' || c == '\n' || c == '\r' || c == '\x0b' || c == '\x0c'

/-- Drop leading and trailing whitespace from a character list;
models `str.strip()`. -/
def trimList (l : List Char) : List Char :=
  ((l.dropWhile isWS).reverse.dropWhile isWS).reverse

/-- `str.strip()` on strings. -/
def trimStr (s : String) : String :=
  String.mk (trimList s.toList)

/-- Split a character list at every occurrence of `c`; models
`str.split(sep)`, which always returns a non-empty list and keeps
empty pieces. -/
def splitCharList (c : Char) : List Char → List (List Char)
  | [] => [[]]
  | x :: xs =>
    if x = c then [] :: splitCharList c xs
    else
      match splitCharList c xs with
      | [] => [[x]]
      | g :: gs => (x :: g) :: gs

/-- `content.split('\n')` (the source files contain no `\r`, so this
also models `str.splitlines()` on the inputs considered). -/
def splitLines (s : String) : List String :=
  (splitCharList '\n' s.toList).map String.mk

/-- `'\n'.join(lines)`. -/
def joinLines : List String → String
  | [] => ""
  | [l] => l
  | l :: ls => l ++ "\n" ++ joinLines ls

/-- Does `pat` occur at the very start of `l`?  Used to model
`str.startswith` and the scan done by `str.replace`. -/
def listStarts : List Char → List Char → Bool
  | [], _ => true
  | _ :: _, [] => false
  | a :: as, b :: bs => if a = b then listStarts as bs else false

/-- `s.startswith(pat)`. -/
def strStarts (s pat : String) : Bool :=
  listStarts pat.toList s.toList

/-- `s.endswith(pat)`. -/
def strEnds (s pat : String) : Bool :=
  listStarts pat.toList.reverse s.toList.reverse

/-- `c in s` for a single character. -/
def strHasChar (s : String) (c : Char) : Bool :=
  s.toList.contains c

/-- Replace the first occurrence of `pat` by `repl`; models
`str.replace(pat, repl, 1)` (with Python's convention that an empty
pattern matches at position 0). -/
def replFirstAux (pat repl : List Char) : List Char → List Char
  | [] => if pat.isEmpty then repl else []
  | x :: xs =>
    if listStarts pat (x :: xs) then repl ++ (x :: xs).drop pat.length
    else x :: replFirstAux pat repl xs

/-- `s.replace(pat, repl, 1)` on strings. -/
def replaceFirst (s pat repl : String) : String :=
  String.mk (replFirstAux pat.toList repl.toList s.toList)

/-- Drop the trailing run of characters satisfying `p`; models
`str.rstrip(chars)`. -/
def stripTrailing (p : Char → Bool) (s : String) : String :=
  String.mk (s.toList.reverse.dropWhile p).reverse

/-- Split at the first occurrence of `c`, if any; models
`str.split(c, 1)` distinguishing whether `c` occurs. -/
def breakAtChar (c : Char) : List Char → Option (List Char × List Char)
  | [] => none
  | x :: xs =>
    if x = c then some ([], xs)
    else (breakAtChar c xs).map (fun p => (x :: p.1, p.2))

/-- `s.split('#', 1)`: the part before the first `'#'` and, when a
`'#'` occurs, the part after it. -/
def splitHash (s : String) : String × Option String :=
  match breakAtChar '#' s.toList with
  | none => (s, none)
  | some (a, b) => (String.mk a, some (String.mk b))

/-! ## The node model (`TreeNode` in `core.py`) -/

/-- A node of the parsed folder tree: `TreeNode(name, is_directory,
comment, children)` from `core.py`. -/
inductive TreeNode : Type where
  | mk (name : String) (is_directory : Bool) (comment : Option String)
      (children : List TreeNode)

/-- The `name` field of a node. -/
def TreeNode.name : TreeNode → String
  | .mk n _ _ _ => n

/-- The `is_directory` field of a node. -/
def TreeNode.is_directory : TreeNode → Bool
  | .mk _ d _ _ => d

/-- The `comment` field of a node. -/
def TreeNode.comment : TreeNode → Option String
  | .mk _ _ c _ => c

/-- The `children` field of a node. -/
def TreeNode.children : TreeNode → List TreeNode
  | .mk _ _ _ cs => cs

/-! ## Tree-drawing parser (`parse_tree_format` and its helpers) -/

/-- Membership in the regex class `[│├└─\s]` used throughout the
tree-drawing parser. -/
def isTreeSym (c : Char) : Bool :=
  c == '│' || c == '├' || c == '└' || c == '─' || isWS c

/-- Whether `re.match(r'^[│├└─\s]*\S', line)` succeeds.  Because the
class contains all of `\s` and the glyphs are themselves non-space,
the regex matches exactly when the line contains any non-whitespace
character. -/
def hasContent (l : String) : Bool :=
  l.toList.any (fun c => !isWS c)

/-- The counting loop of `_calculate_tree_indent_level`: each `├`/`└`
or `│` counts one level and skips the three following characters of
its fixed-width connector run; other class characters are skipped one
at a time. -/
def countIndentSyms : List Char → Nat
  | [] => 0
  | c :: rest =>
    if c = '├' || c = '└' || c = '│' then
      match rest with
      | _ :: _ :: _ :: t => 1 + countIndentSyms t
      | _ => 1
    else countIndentSyms rest

/-- `_calculate_tree_indent_level(line)`: run the counting loop over
the leading `[│├└─\s]*` run of the line. -/
def calcTreeIndent (l : String) : Nat :=
  countIndentSyms (l.toList.takeWhile isTreeSym)

/-- `_clean_tree_line(line)`: strip the leading glyph run, strip
whitespace, then split off an inline `#` comment. -/
def cleanTreeLine (l : String) : String × Option String :=
  if strHasChar (trimStr (String.mk (l.toList.dropWhile isTreeSym))) '#' then
    match splitHash (trimStr (String.mk (l.toList.dropWhile isTreeSym))) with
    | (a, some b) => (trimStr a, some (trimStr b))
    | (a, none) => (a, none)
  else (trimStr (String.mk (l.toList.dropWhile isTreeSym)), none)

/-- Name extraction in `_inject_slashes_for_tree_format`:
`clean_line.split('#', 1)[0].strip()` applied to the glyph-stripped
line. -/
def injectName (l : String) : String :=
  trimStr (splitHash (trimStr (String.mk (l.toList.dropWhile isTreeSym)))).1

/-- Indent counting in `_inject_slashes_for_tree_format`: the number
of `├`, `└` or `│` glyphs in the leading `[│├└─\s]*` run (no
fixed-width skipping in this pre-pass). -/
def injectIndentLevel (l : String) : Nat :=
  ((l.toList.takeWhile isTreeSym).filter
    (fun c => c == '├' || c == '└' || c == '│')).length

/-- The lookahead loop of `_inject_slashes_for_tree_format`: find the
next content-bearing line; if it is strictly deeper the entry is a
directory, otherwise the initial guess stands. -/
def injectLookahead (d : Nat) (dflt : Bool) : List String → Bool
  | [] => dflt
  | l :: rest =>
    if hasContent l then
      if d < injectIndentLevel l then true else dflt
    else injectLookahead d dflt rest

/-- The per-line body of `_inject_slashes_for_tree_format`, with
`rest` the lines following the current one. -/
def injectLine (l : String) (rest : List String) : String :=
  if !hasContent l then l
  else
    if injectLookahead (injectIndentLevel l)
        ((!strHasChar (injectName l) '.') && (!strEnds (injectName l) "/")) rest &&
        !strEnds (injectName l) "/" then
      replaceFirst l (injectName l) (injectName l ++ "/")
    else l

/-- The line loop of `_inject_slashes_for_tree_format`. -/
def injectLines : List String → List String
  | [] => []
  | l :: rest => injectLine l rest :: injectLines rest

/-- `_inject_slashes_for_tree_format(content)`. -/
def injectSlashesTree (content : String) : String :=
  joinLines (injectLines (splitLines (trimStr content)))

/-- `clean_line.rstrip("/\\")`. -/
def rstripSlashes (s : String) : String :=
  stripTrailing (fun c => c == '/' || c == '\\') s

/-- The lookahead of `parse_tree_format`: the first content-bearing
line among the following lines decides (strictly deeper means
directory); with no such line the node is not a directory. -/
def lookNextDeeper (d : Nat) : List String → Bool
  | [] => false
  | l :: rest =>
    if hasContent l then decide (d < calcTreeIndent l)
    else lookNextDeeper d rest

/-- One parsed line of `parse_tree_format`: nesting depth, cleaned
name, directory flag and optional comment. -/
def treeEntries : List String → List (Int × String × Bool × Option String)
  | [] => []
  | l :: rest =>
    if trimStr l = "" then treeEntries rest
    else if !hasContent l then treeEntries rest
    else if (cleanTreeLine l).1 = "…" ∨ (cleanTreeLine l).1 = "..." ∨
        (cleanTreeLine l).1 = "" then treeEntries rest
    else (Int.ofNat (calcTreeIndent l), rstripSlashes (cleanTreeLine l).1,
      lookNextDeeper (calcTreeIndent l) rest, (cleanTreeLine l).2) :: treeEntries rest

/-- A stack frame of the parent-resolution stack: a node under
construction together with its recorded depth. -/
structure Frame where
  fname : String
  fdir : Bool
  fcomment : Option String
  fdepth : Int
  fchildren : List TreeNode

/-- Close a frame into a `TreeNode`. -/
def frameToNode (f : Frame) : TreeNode :=
  TreeNode.mk f.fname f.fdir f.fcomment f.fchildren

/-- Attach a completed child frame to its parent frame, preserving
insertion order of children. -/
def attachFrame (child parent : Frame) : Frame :=
  { parent with fchildren := parent.fchildren ++ [frameToNode child] }

/-- The body of the pop loop with the current top frame `f` carried
explicitly (so that the recursion is structural in the lower stack). -/
def popFramesGo (d : Int) : Frame → List Frame → Frame → List Frame × Frame
  | f, fs, r =>
    if d ≤ f.fdepth then
      match fs with
      | [] => ([], attachFrame f r)
      | g :: gs => popFramesGo d (attachFrame f g) gs r
    else (f :: fs, r)

/-- The pop loop `while len(stack) > 1 and stack[-1][1] >= indent`:
the root frame (kept separately) is never popped. -/
def popFrames (d : Int) : List Frame → Frame → List Frame × Frame
  | [], r => ([], r)
  | f :: fs, r => popFramesGo d f fs r

/-- Process one parsed entry: pop to the parent, then push a fresh
frame for the new node. -/
def pushEntry (st : List Frame × Frame) (e : Int × String × Bool × Option String) :
    List Frame × Frame :=
  let p := popFrames e.1 st.1 st.2
  ({ fname := e.2.1, fdir := e.2.2.1, fcomment := e.2.2.2, fdepth := e.1,
     fchildren := [] } :: p.1, p.2)

/-- Attach the frame `f` through the lower stack down into the root
frame. -/
def collapseInto : Frame → List Frame → Frame → Frame
  | f, [], r => attachFrame f r
  | f, g :: gs, r => collapseInto (attachFrame f g) gs r

/-- Attach every frame still on the stack to its parent, ending in the
root frame. -/
def collapseAll : List Frame → Frame → Frame
  | [], r => r
  | f :: fs, r => collapseInto f fs r

/-- The synthetic root seeded as `(root, -1)` in both line parsers. -/
def rootFrame : Frame :=
  { fname := ".", fdir := true, fcomment := none, fdepth := -1, fchildren := [] }

/-- Run the stack discipline shared by `parse_tree_format` and
`parse_simple_format` over a list of parsed entries. -/
def buildStack (es : List (Int × String × Bool × Option String)) : TreeNode :=
  let p := es.foldl pushEntry ([], rootFrame)
  frameToNode (collapseAll p.1 p.2)

/-- Drop a leading literal `.` root line, as both line parsers do. -/
def dropDotRoot (ls : List String) : List String :=
  match ls with
  | [] => []
  | l :: rest => if trimStr l = "." then rest else l :: rest

/-- `parse_tree_format(content)`: slash-injection pre-pass, line
splitting, optional root line removal, then the stack-based parse. -/
def parse_tree_format (content : String) : TreeNode :=
  buildStack (treeEntries (dropDotRoot (splitLines (trimStr (injectSlashesTree content)))))

/-! ## Indented-outline parser (`parse_simple_format` and helpers) -/

/-- `filename.count('.')`. -/
def dotCount (f : String) : Nat :=
  f.toList.countP (fun c => c == '.')

/-- `_has_extension(filename)`: a leading single dot-file with no
other dots counts as having an extension; otherwise a dot anywhere
counts, unless the name starts with a dot. -/
def has_extension (filename : String) : Bool :=
  if strStarts filename "." && (dotCount filename == 1) then true
  else strHasChar filename '.' && !strStarts filename "."

/-- `_calculate_simple_indent_level(line)`: leading spaces divided by
four (only the space character counts, as in `line.lstrip(' ')`). -/
def simpleIndentLevel (l : String) : Nat :=
  (l.toList.takeWhile (fun c => c == ' ')).length / 4

/-- The per-line substitution of `_inject_slashes_for_simple_tree`:
lines matching `^([ \t]*)([^\s./][^\n]*)$` get a trailing slash
appended unless the matched name contains a dot or already ends with a
slash. -/
def slashifyLine (l : String) : String :=
  let rest := l.toList.dropWhile (fun c => c == ' ' || c == '\t')
  match rest with
  | [] => l
  | c :: _ =>
    if isWS c || c = '.' || c = '/' then l
    else
      let name := String.mk rest
      if strHasChar name '.' || strEnds name "/" then l else l ++ "/"

/-- `_inject_slashes_for_simple_tree(content)`: the multiline regex
substitution acts line by line. -/
def injectSlashesSimple (content : String) : String :=
  joinLines ((splitLines content).map slashifyLine)

/-- One parsed line of `parse_simple_format`. -/
def simpleEntries : List String → List (Int × String × Bool × Option String)
  | [] => []
  | l :: rest =>
    if trimStr l = "" then simpleEntries rest
    else
      let d := simpleIndentLevel l
      let clean0 := trimStr l
      let p :=
        if strHasChar clean0 '#' then
          match splitHash clean0 with
          | (a, some b) => (trimStr a, some (trimStr b))
          | (a, none) => (a, (none : Option String))
        else (clean0, none)
      if p.1 = "" then simpleEntries rest
      else
        (Int.ofNat d, stripTrailing (fun c => c == '/') p.1,
          strEnds p.1 "/" || !has_extension p.1, p.2) :: simpleEntries rest

/-- `parse_simple_format(content)`: optional root line removal,
slash-injection pre-pass, then the shared stack-based parse. -/
def parse_simple_format (content : String) : TreeNode :=
  buildStack (simpleEntries (splitLines (injectSlashesSimple (joinLines (dropDotRoot (splitLines content))))))

/-! ## Format auto-detection (the `auto` branch of `parse`) -/

/-- `line.strip().startswith(('├', '└', '│'))`. -/
def startsTreeGlyph (l : String) : Bool :=
  strStarts (trimStr l) "├" || strStarts (trimStr l) "└" || strStarts (trimStr l) "│"

/-- The auto-detection logic of `parse`: any stripped line starting
with a branch glyph selects `tree`; otherwise a stripped content
starting with `-`, `{`, `[`, `name:` or `structure:` selects `yaml`;
otherwise `simple`. -/
def autoDetectFormat (content : String) : String :=
  if (splitLines (trimStr content)).any startsTreeGlyph then "tree"
  else if strStarts (trimStr content) "-" || strStarts (trimStr content) "\x7b" ||
      strStarts (trimStr content) "[" || strStarts (trimStr content) "name:" ||
      strStarts (trimStr content) "structure:" then "yaml"
  else "simple"

/-! ## Structured-data importer (`_parse_yaml`)

`yaml.safe_load` is an external library; the importer is modelled on
already-parsed documents.  Scalars are modelled by their string form
(every scalar used in this repository's inputs and tests is a
string). -/

/-- A parsed structured document: scalar, sequence or mapping. -/
inductive Yaml : Type where
  | scalar (s : String)
  | seq (items : List Yaml)
  | kvs (entries : List (String × Yaml))

/-- Dictionary lookup by key, first match wins. -/
def lookupKey : List (String × Yaml) → String → Option Yaml
  | [], _ => none
  | e :: rest, k => if e.1 = k then some e.2 else lookupKey rest k

/-- `node.get("name", name)` in the serialized-node branch: the value
under `name` (its string form) or the default.  Non-scalar `name`
values (which Python would install as a non-string node name) are out
of the modelled input space and fall back to the default. -/
def yamlNameOf (v : Option Yaml) (dflt : String) : String :=
  match v with
  | some (.scalar s) => s
  | _ => dflt

/-- `node.get("children", [])` in the serialized-node branch.  Python
would iterate elementwise over a non-sequence value; no input of this
repository exercises that corner and it is modelled as the empty
list. -/
def serializedKids (es : List (String × Yaml)) : List Yaml :=
  match lookupKey es "children" with
  | some (.seq xs) => xs
  | _ => []

theorem lookupKey_sizeOf : ∀ (es : List (String × Yaml)) (k : String) (y : Yaml),
    lookupKey es k = some y → sizeOf y < sizeOf es := by
  intro es
  induction es with
  | nil => intro k y h; simp [lookupKey] at h
  | cons e rest ih =>
    intro k y h
    rw [lookupKey] at h
    split at h
    · injection h with h2
      subst h2
      obtain ⟨a, b⟩ := e
      simp
      omega
    · have := ih k y h
      obtain ⟨a, b⟩ := e
      simp
      omega

theorem sizeOfListPos {α : Type} [SizeOf α] (l : List α) : 0 < sizeOf l := by
  cases l with
  | nil => simp
  | cons a b => simp

theorem serializedKids_sizeOf (es : List (String × Yaml)) :
    sizeOf (serializedKids es) < 1 + sizeOf es := by
  have hpos := sizeOfListPos es
  unfold serializedKids
  cases h : lookupKey es "children" with
  | none => simp; omega
  | some y =>
    have hy := lookupKey_sizeOf es "children" y h
    cases y with
    | scalar s => simp; omega
    | kvs l => simp; omega
    | seq xs =>
      simp only
      simp at hy
      omega

mutual

/-- `_parse_yaml(node, name=".")`: serialized-node mappings (`name`
key present) reconstruct a directory node with the recorded name;
general mappings become directories keyed by entry; sequences flatten
mapping items and make scalar items file leaves; a scalar becomes a
single file leaf under the current name. -/
def parseYamlNode : Yaml → String → TreeNode
  | .kvs es, name =>
    if es.any (fun e => e.1 = "name") then
      TreeNode.mk (yamlNameOf (lookupKey es "name") name) true none
        (parseYamlList (serializedKids es))
    else TreeNode.mk name true none (parseYamlEntries es)
  | .seq xs, name => TreeNode.mk name true none (parseYamlSeq xs)
  | .scalar s, name => TreeNode.mk name true none [TreeNode.mk s false none []]
termination_by y _ => sizeOf y
decreasing_by
  all_goals first
    | (exact Nat.lt_of_lt_of_le (serializedKids_sizeOf es) (by simp))
    | (simp; try omega)
    | omega

/-- The `children` recursion of the serialized-node branch (each child
imported with the default name `.`). -/
def parseYamlList : List Yaml → List TreeNode
  | [] => []
  | y :: ys => parseYamlNode y "." :: parseYamlList ys
termination_by ys => sizeOf ys
decreasing_by
  all_goals first
    | (exact Nat.lt_of_lt_of_le (serializedKids_sizeOf es) (by simp))
    | (simp; try omega)
    | omega

/-- The general-mapping recursion: each key/value pair becomes a
child. -/
def parseYamlEntries : List (String × Yaml) → List TreeNode
  | [] => []
  | (k, v) :: es => parseYamlNode v k :: parseYamlEntries es
termination_by es => sizeOf es
decreasing_by
  all_goals first
    | (exact Nat.lt_of_lt_of_le (serializedKids_sizeOf es) (by simp))
    | (simp; try omega)
    | omega

/-- The sequence recursion: mapping items are flattened into their
key/value pairs; any other item becomes a file leaf named by its
string form (non-scalar items, which Python would name by `str()` of a
container, do not occur in this repository's inputs and are named by
the empty string). -/
def parseYamlSeq : List Yaml → List TreeNode
  | [] => []
  | .kvs es :: ys => parseYamlEntries es ++ parseYamlSeq ys
  | .scalar s :: ys => TreeNode.mk s false none [] :: parseYamlSeq ys
  | .seq _ :: ys => TreeNode.mk "" false none [] :: parseYamlSeq ys
termination_by ys => sizeOf ys
decreasing_by
  all_goals first
    | (exact Nat.lt_of_lt_of_le (serializedKids_sizeOf es) (by simp))
    | (simp; try omega)
    | omega

end

/-! ## Filesystem model

Paths are lists of segments (`pathlib` parts); `str(path)` joins the
segments with `/`.  The backing store records the set of existing
directories and the existing files with their content; `mkdir`,
`touch` and `write_text` act on it as the corresponding `pathlib`
calls do. -/

/-- `str(path)` for a segment-list path. -/
def strOfPath : List String → String
  | [] => ""
  | [s] => s
  | s :: rest => s ++ "/" ++ strOfPath rest

/-- The non-empty prefixes of a path: the chain of directories that
`mkdir(parents=True)` brings into existence. -/
def pathChain (p : List String) : List (List String) :=
  (List.range p.length).map (fun i => p.take (i + 1))

/-- The modelled backing store. -/
structure FS where
  dirs : List (List String)
  files : List (List String × String)

/-- The empty backing store. -/
def emptyFS : FS := { dirs := [], files := [] }

/-- Does a file exist at `p`? -/
def FS.hasFile (fs : FS) (p : List String) : Bool :=
  fs.files.any (fun e => e.1 = p)

/-- Does a directory exist at `p`? -/
def FS.hasDir (fs : FS) (p : List String) : Bool :=
  fs.dirs.any (fun q => q = p)

/-- `path.exists()`: true for a directory or a file at `p`. -/
def FS.existsPath (fs : FS) (p : List String) : Bool :=
  fs.hasDir p || fs.hasFile p

/-- `path.mkdir(parents=True, exist_ok=True)`: add every missing
directory on the chain down to `p`. -/
def FS.mkdirParents (fs : FS) (p : List String) : FS :=
  { fs with dirs := fs.dirs ++ (pathChain p).filter (fun q => !fs.hasDir q) }

/-- `path.touch()`: create an empty file unless one exists (an
existing file's content is untouched). -/
def FS.touch (fs : FS) (p : List String) : FS :=
  if fs.hasFile p then fs else { fs with files := fs.files ++ [(p, "")] }

/-- `path.write_text(content)`: create or overwrite. -/
def FS.write (fs : FS) (p : List String) (content : String) : FS :=
  if fs.hasFile p then
    { fs with files := fs.files.map (fun e => if e.1 = p then (p, content) else e) }
  else { fs with files := fs.files ++ [(p, content)] }

/-- The file names directly inside directory `d`
(`directory.iterdir()` restricted by `f.is_file()`). -/
def FS.filesIn (fs : FS) (d : List String) : List String :=
  fs.files.filterMap (fun e =>
    match e.1.getLast? with
    | some nm => if e.1.dropLast = d then some nm else none
    | none => none)

/-- `PurePath.suffix` of a file name: the part from the last dot,
provided that dot is neither the first nor the last character. -/
def pathSuffix (nm : String) : String :=
  let cs := nm.toList
  let after := (cs.reverse.takeWhile (fun c => c != '.')).reverse
  if after.length = cs.length then ""
  else if 0 < cs.length - after.length - 1 && after.length != 0 then
    String.mk ('.' :: after)
  else ""

/-! ## Filesystem materializer (`TreeGenerator`) -/

/-- `_should_skip(name)`: exact matches and glob-style suffix/prefix
matches against the fixed skip list. -/
def should_skip (name : String) : Bool :=
  let pats := ["__pycache__", "*.pyc", ".git", ".DS_Store", "Thumbs.db", "*.log",
    ".pytest_cache", ".venv", "venv", ".env", "node_modules", ".coverage",
    "htmlcov", "*.egg-info", "build", "dist"]
  pats.any (fun pat =>
    name = pat ||
    (strStarts pat "*" && strEnds name (String.mk pat.toList.tail)) ||
    (strEnds pat "*" && strStarts name (String.mk pat.toList.dropLast)))

/-- The per-extension comment-prefix table (`comment_styles`). -/
def comment_styles : List (String × String) :=
  [(".py", "#"), (".js", "//"), (".ts", "//"), (".java", "//"), (".cpp", "//"),
   (".c", "//"), (".h", "//"), (".hpp", "//"), (".css", "/*"), (".html", "<!--"),
   (".xml", "<!--"), (".yml", "#"), (".yaml", "#"), (".sh", "#"), (".bash", "#"),
   (".zsh", "#"), (".fish", "#"), (".ps1", "#"), (".rb", "#"), (".go", "//"),
   (".rs", "//"), (".php", "//"), (".sql", "--"), (".r", "#"), (".m", "%"),
   (".tex", "%"), (".lua", "--"), (".pl", "#"), (".swift", "//"), (".kt", "//"),
   (".scala", "//"), (".clj", ";"), (".hs", "--"), (".elm", "--"), (".dart", "//"),
   (".vue", "//"), (".jsx", "//"), (".tsx", "//")]

/-- `comment_styles.get(suffix, '#')`. -/
def commentCharFor (sfx : String) : String :=
  match comment_styles.find? (fun e => e.1 = sfx) with
  | some e => e.2
  | none => "#"

/-- The single line written by `_create_file_with_comment`. -/
def renderComment (ch : String) (comment : String) : String :=
  if ch = "/*" then "/* " ++ comment ++ " */\n"
  else if ch = "<!--" then "<!-- " ++ comment ++ " -->\n"
  else ch ++ " " ++ comment ++ "\n"

/-- The mutable state of one `generate` run: the backing store plus
the three report lists. -/
structure GenState where
  fs : FS
  created_files : List String
  created_dirs : List String
  skipped_items : List String

/-- `_create_directory(dir_path)`. -/
def createDirectory (dry : Bool) (p : List String) (st : GenState) : GenState :=
  { st with
    fs := if dry then st.fs else st.fs.mkdirParents p,
    created_dirs := st.created_dirs ++ [strOfPath p] }

/-- `_create_file(file_path)`. -/
def createFile (dry : Bool) (p : List String) (st : GenState) : GenState :=
  { st with
    fs := if dry then st.fs else (st.fs.mkdirParents p.dropLast).touch p,
    created_files := st.created_files ++ [strOfPath p] }

/-- `_create_file_with_comment(file_path, comment)`. -/
def createFileWithComment (dry : Bool) (p : List String) (comment : String)
    (st : GenState) : GenState :=
  { st with
    fs := if dry then st.fs
      else (st.fs.mkdirParents p.dropLast).write p
        (renderComment (commentCharFor (pathSuffix (p.getLastD ""))) comment),
    created_files := st.created_files ++ [strOfPath p] }

/-- `_should_create_init_py(directory)`: outside dry-run, an existing
directory holding at least one `.py` file. -/
def shouldCreateInitPy (dry : Bool) (fs : FS) (d : List String) : Bool :=
  !dry && fs.existsPath d && (fs.filesIn d).any (fun nm => pathSuffix nm = ".py")

/-- `_create_init_py(directory)`. -/
def createInitPy (dry : Bool) (d : List String) (st : GenState) : GenState :=
  if st.fs.existsPath (d ++ ["__init__.py"]) then st
  else
    { st with
      fs := if dry then st.fs else st.fs.touch (d ++ ["__init__.py"]),
      created_files := st.created_files ++ [strOfPath (d ++ ["__init__.py"])] }

/-- The post-descent package-marker step of `_generate_recursive`:
`if self._should_create_init_py(child_path): self._create_init_py(child_path)`. -/
def initStep (dry : Bool) (p : List String) (st : GenState) : GenState :=
  if shouldCreateInitPy dry st.fs p then createInitPy dry p st else st

mutual

/-- The body of the `for child in node.children` loop of
`_generate_recursive` for a single child: skip-check, then directory
creation and descent (with the `__init__.py` post-check) or file
creation (empty comments are falsy in Python, so a node with comment
`""` gets a plain empty file). -/
def genChild (dry : Bool) : TreeNode → List String → GenState → GenState
  | TreeNode.mk nm isDir cm kids, path, st =>
    if should_skip nm then { st with skipped_items := st.skipped_items ++ [nm] }
    else
      if isDir then
        initStep dry (path ++ [nm])
          (genChildren dry kids (path ++ [nm]) (createDirectory dry (path ++ [nm]) st))
      else
        match cm with
        | some c => if c = "" then createFile dry (path ++ [nm]) st
            else createFileWithComment dry (path ++ [nm]) c st
        | none => createFile dry (path ++ [nm]) st

/-- `_generate_recursive(node, current_path)`: the loop over
`node.children`. -/
def genChildren (dry : Bool) : List TreeNode → List String → GenState → GenState
  | [], _, st => st
  | c :: cs, path, st => genChildren dry cs path (genChild dry c path st)

end

/-- The body of `generate(tree)` on a given initial backing store:
reset the report lists, create the base directory outside dry-run,
then walk the root's children. -/
def runGenerate (dry : Bool) (base : List String) (t : TreeNode) (fs0 : FS) : GenState :=
  let st0 : GenState :=
    { fs := if dry then fs0 else fs0.mkdirParents base,
      created_files := [], created_dirs := [], skipped_items := [] }
  genChildren dry t.children base st0

/-- The dictionary returned by `generate`, with its literal keys in
insertion order. -/
def generate (dry : Bool) (base : List String) (t : TreeNode) (fs0 : FS) :
    List (String × List String) :=
  let st := runGenerate dry base t fs0
  [("created_files", st.created_files), ("created_dirs", st.created_dirs),
   ("skipped_items", st.skipped_items)]

/-- Does the structured document take the serialized-node form (a
mapping with a `name` key)? -/
def isSerializedMap : Yaml → Bool
  | .kvs es => es.any (fun e => e.1 = "name")
  | _ => false

/-- Reachability of a node from a children list along a chain of
non-skipped directory ancestors: `ChainTo cs r c` says the generator,
walking `cs`, reaches `c` as a direct entry (`r = []`) or inside the
non-skipped directory child named by the head of `r`.  These are
exactly the nodes whose skip-check the generator executes. -/
inductive ChainTo : List TreeNode → List String → TreeNode → Prop where
  | here : ∀ {cs : List TreeNode} {c : TreeNode}, c ∈ cs → ChainTo cs [] c
  | deeper : ∀ {cs : List TreeNode} {d c : TreeNode} {r : List String}, d ∈ cs →
      should_skip d.name = false → d.is_directory = true →
      ChainTo d.children r c → ChainTo cs (d.name :: r) c

/-- Report-list extension: every recorded entry of `a` is still
recorded in `b` (the generator only ever appends to its report
lists). -/
def StExt (a b : GenState) : Prop :=
  (∀ x, x ∈ a.created_dirs → x ∈ b.created_dirs) ∧
  (∀ x, x ∈ a.created_files → x ∈ b.created_files) ∧
  (∀ x, x ∈ a.skipped_items → x ∈ b.skipped_items)

/-- Every recorded created path lies strictly below `base` through
non-skipped segments. -/
def PathsOk (base : List String) (st : GenState) : Prop :=
  ∀ p, p ∈ st.created_dirs ++ st.created_files →
    ∃ q, p = strOfPath (base ++ q) ∧ q ≠ [] ∧ ∀ s ∈ q, should_skip s = false

/-! ## Theorems -/

theorem stExt_refl (st : GenState) : StExt st st :=
  ⟨fun _ h => h, fun _ h => h, fun _ h => h⟩

theorem stExt_trans {a b c : GenState} (h1 : StExt a b) (h2 : StExt b c) : StExt a c :=
  ⟨fun x h => h2.1 x (h1.1 x h), fun x h => h2.2.1 x (h1.2.1 x h),
   fun x h => h2.2.2 x (h1.2.2 x h)⟩

theorem stExt_createDirectory (dry : Bool) (p : List String) (st : GenState) :
    StExt st (createDirectory dry p st) := by
  refine ⟨fun x h => ?_, fun x h => h, fun x h => h⟩
  simp [createDirectory]
  exact Or.inl h

theorem stExt_createFile (dry : Bool) (p : List String) (st : GenState) :
    StExt st (createFile dry p st) := by
  refine ⟨fun x h => h, fun x h => ?_, fun x h => h⟩
  simp [createFile]
  exact Or.inl h

theorem stExt_createFileWithComment (dry : Bool) (p : List String) (c : String)
    (st : GenState) : StExt st (createFileWithComment dry p c st) := by
  refine ⟨fun x h => h, fun x h => ?_, fun x h => h⟩
  simp [createFileWithComment]
  exact Or.inl h

theorem stExt_createInitPy (dry : Bool) (d : List String) (st : GenState) :
    StExt st (createInitPy dry d st) := by
  unfold createInitPy
  split
  · exact stExt_refl st
  · refine ⟨fun x h => h, fun x h => ?_, fun x h => h⟩
    simp
    exact Or.inl h

theorem stExt_initStep (dry : Bool) (p : List String) (st : GenState) :
    StExt st (initStep dry p st) := by
  unfold initStep
  split
  · exact stExt_createInitPy dry p st
  · exact stExt_refl st

mutual

theorem stExt_genChild (dry : Bool) (c : TreeNode) (path : List String) (st : GenState) :
    StExt st (genChild dry c path st) := by
  obtain ⟨nm, isDir, cm, kids⟩ := c
  simp only [genChild]
  split
  · exact ⟨fun x h => h, fun x h => h, fun x h => by simp; exact Or.inl h⟩
  · split
    · refine stExt_trans (stExt_createDirectory dry (path ++ [nm]) st) ?_
      refine stExt_trans (stExt_genChildren dry kids (path ++ [nm]) _) ?_
      exact stExt_initStep dry (path ++ [nm]) _
    · match cm with
      | some cc =>
        simp only
        split
        · exact stExt_createFile dry (path ++ [nm]) st
        · exact stExt_createFileWithComment dry (path ++ [nm]) cc st
      | none => exact stExt_createFile dry (path ++ [nm]) st

theorem stExt_genChildren (dry : Bool) (cs : List TreeNode) (path : List String)
    (st : GenState) : StExt st (genChildren dry cs path st) := by
  match cs with
  | [] => exact stExt_refl st
  | c :: rest =>
    simp only [genChildren]
    exact stExt_trans (stExt_genChild dry c path st)
      (stExt_genChildren dry rest path (genChild dry c path st))

end

theorem genChildren_mem_skipped (dry : Bool) {cs : List TreeNode} {c : TreeNode}
    (hmem : c ∈ cs) (hskip : should_skip c.name = true) :
    ∀ (path : List String) (st : GenState),
      c.name ∈ (genChildren dry cs path st).skipped_items := by
  induction cs with
  | nil => cases hmem
  | cons a rest ih =>
    intro path st
    simp only [genChildren]
    rcases List.mem_cons.mp hmem with h | h
    · subst h
      refine (stExt_genChildren dry rest path _).2.2 c.name ?_
      obtain ⟨nm, isDir, cm, kids⟩ := c
      simp only [TreeNode.name] at hskip ⊢
      simp only [genChild, hskip, if_true]
      simp
    · exact ih h path _

theorem genChildren_mem_dir (dry : Bool) {cs : List TreeNode} {c : TreeNode}
    (hmem : c ∈ cs) (hskip : should_skip c.name = false) (hdir : c.is_directory = true) :
    ∀ (path : List String) (st : GenState),
      strOfPath (path ++ [c.name]) ∈ (genChildren dry cs path st).created_dirs := by
  induction cs with
  | nil => cases hmem
  | cons a rest ih =>
    intro path st
    simp only [genChildren]
    rcases List.mem_cons.mp hmem with h | h
    · subst h
      refine (stExt_genChildren dry rest path _).1 _ ?_
      obtain ⟨nm, isDir, cm, kids⟩ := c
      simp only [TreeNode.name] at hskip ⊢
      simp only [TreeNode.is_directory] at hdir
      subst hdir
      simp only [genChild, hskip, Bool.false_eq_true, if_false, if_true]
      refine (stExt_initStep dry (path ++ [nm]) _).1 _ ?_
      refine (stExt_genChildren dry kids (path ++ [nm]) _).1 _ ?_
      simp [createDirectory]
    · exact ih h path _

theorem genChildren_mem_file (dry : Bool) {cs : List TreeNode} {c : TreeNode}
    (hmem : c ∈ cs) (hskip : should_skip c.name = false) (hdir : c.is_directory = false) :
    ∀ (path : List String) (st : GenState),
      strOfPath (path ++ [c.name]) ∈ (genChildren dry cs path st).created_files := by
  induction cs with
  | nil => cases hmem
  | cons a rest ih =>
    intro path st
    simp only [genChildren]
    rcases List.mem_cons.mp hmem with h | h
    · subst h
      refine (stExt_genChildren dry rest path _).2.1 _ ?_
      obtain ⟨nm, isDir, cm, kids⟩ := c
      simp only [TreeNode.name] at hskip ⊢
      simp only [TreeNode.is_directory] at hdir
      subst hdir
      simp only [genChild, hskip, Bool.false_eq_true, if_false]
      match cm with
      | some cc =>
        simp only
        split
        · simp [createFile]
        · simp [createFileWithComment]
      | none => simp [createFile]
    · exact ih h path _

theorem genChildren_descend (dry : Bool) {cs : List TreeNode} {d : TreeNode}
    (hmem : d ∈ cs) (hskip : should_skip d.name = false) (hdir : d.is_directory = true) :
    ∀ (path : List String) (st : GenState),
      ∃ st', StExt (genChildren dry d.children (path ++ [d.name]) st')
        (genChildren dry cs path st) := by
  induction cs with
  | nil => cases hmem
  | cons a rest ih =>
    intro path st
    simp only [genChildren]
    rcases List.mem_cons.mp hmem with h | h
    · subst h
      refine ⟨createDirectory dry (path ++ [d.name]) st, ?_⟩
      refine stExt_trans ?_ (stExt_genChildren dry rest path _)
      obtain ⟨nm, isDir, cm, kids⟩ := d
      simp only [TreeNode.name, TreeNode.children] at *
      simp only [TreeNode.is_directory] at hdir
      subst hdir
      simp only [genChild, hskip, Bool.false_eq_true, if_false, if_true]
      exact stExt_initStep dry (path ++ [nm]) _
    · exact ih h path (genChild dry a path st)

theorem chainTo_skipped (dry : Bool) {cs : List TreeNode} {r : List String} {c : TreeNode}
    (hchain : ChainTo cs r c) (hskip : should_skip c.name = true) :
    ∀ (path : List String) (st : GenState),
      c.name ∈ (genChildren dry cs path st).skipped_items := by
  induction hchain with
  | here hmem => exact genChildren_mem_skipped dry hmem hskip
  | deeper hmem hs hd _ ih =>
    intro path st
    obtain ⟨st', hext⟩ := genChildren_descend dry hmem hs hd path st
    exact hext.2.2 _ (ih hskip _ st')

theorem chainTo_dir (dry : Bool) {cs : List TreeNode} {r : List String} {c : TreeNode}
    (hchain : ChainTo cs r c) (hskip : should_skip c.name = false)
    (hdir : c.is_directory = true) :
    ∀ (path : List String) (st : GenState),
      strOfPath (path ++ r ++ [c.name]) ∈ (genChildren dry cs path st).created_dirs := by
  induction hchain with
  | here hmem =>
    intro path st
    rw [List.append_nil]
    exact genChildren_mem_dir dry hmem hskip hdir path st
  | @deeper cs d cc rr hmem hs hd _ ih =>
    intro path st
    obtain ⟨st', hext⟩ := genChildren_descend dry hmem hs hd path st
    have := ih hskip hdir (path ++ [d.name]) st'
    refine hext.1 _ ?_
    have harr : path ++ (d.name :: rr) ++ [cc.name] = path ++ [d.name] ++ rr ++ [cc.name] := by
      simp
    rw [harr]
    exact this

theorem chainTo_file (dry : Bool) {cs : List TreeNode} {r : List String} {c : TreeNode}
    (hchain : ChainTo cs r c) (hskip : should_skip c.name = false)
    (hdir : c.is_directory = false) :
    ∀ (path : List String) (st : GenState),
      strOfPath (path ++ r ++ [c.name]) ∈ (genChildren dry cs path st).created_files := by
  induction hchain with
  | here hmem =>
    intro path st
    rw [List.append_nil]
    exact genChildren_mem_file dry hmem hskip hdir path st
  | @deeper cs d cc rr hmem hs hd _ ih =>
    intro path st
    obtain ⟨st', hext⟩ := genChildren_descend dry hmem hs hd path st
    have := ih hskip hdir (path ++ [d.name]) st'
    refine hext.2.1 _ ?_
    have harr : path ++ (d.name :: rr) ++ [cc.name] = path ++ [d.name] ++ rr ++ [cc.name] := by
      simp
    rw [harr]
    exact this

theorem pathsOk_addDir {base : List String} {st : GenState} (dry : Bool)
    (h : PathsOk base st) {q : List String} (hq : q ≠ [])
    (hqs : ∀ s ∈ q, should_skip s = false) :
    PathsOk base (createDirectory dry (base ++ q) st) := by
  intro p hp
  simp only [createDirectory, List.mem_append] at hp
  rcases hp with (hp | hp) | hp
  · exact h p (List.mem_append.mpr (Or.inl hp))
  · simp at hp
    exact ⟨q, hp, hq, hqs⟩
  · exact h p (List.mem_append.mpr (Or.inr hp))

theorem pathsOk_addFile {base : List String} {st : GenState} (dry : Bool)
    (h : PathsOk base st) {q : List String} (hq : q ≠ [])
    (hqs : ∀ s ∈ q, should_skip s = false) :
    PathsOk base (createFile dry (base ++ q) st) := by
  intro p hp
  simp only [createFile, List.mem_append] at hp
  rcases hp with hp | (hp | hp)
  · exact h p (List.mem_append.mpr (Or.inl hp))
  · exact h p (List.mem_append.mpr (Or.inr hp))
  · simp at hp
    exact ⟨q, hp, hq, hqs⟩

theorem pathsOk_addFileComment {base : List String} {st : GenState} (dry : Bool)
    (cm : String) (h : PathsOk base st) {q : List String} (hq : q ≠ [])
    (hqs : ∀ s ∈ q, should_skip s = false) :
    PathsOk base (createFileWithComment dry (base ++ q) cm st) := by
  intro p hp
  simp only [createFileWithComment, List.mem_append] at hp
  rcases hp with hp | (hp | hp)
  · exact h p (List.mem_append.mpr (Or.inl hp))
  · exact h p (List.mem_append.mpr (Or.inr hp))
  · simp at hp
    exact ⟨q, hp, hq, hqs⟩

theorem pathsOk_initStep {base : List String} {st : GenState} (dry : Bool)
    (h : PathsOk base st) {q : List String}
    (hqs : ∀ s ∈ q, should_skip s = false) :
    PathsOk base (initStep dry (base ++ q) st) := by
  unfold initStep
  split
  · unfold createInitPy
    split
    · exact h
    · intro p hp
      simp only [List.mem_append] at hp
      rcases hp with hp | (hp | hp)
      · exact h p (List.mem_append.mpr (Or.inl hp))
      · exact h p (List.mem_append.mpr (Or.inr hp))
      · simp at hp
        refine ⟨q ++ ["__init__.py"], by simp [hp], by simp, ?_⟩
        intro s hs
        rcases List.mem_append.mp hs with hs | hs
        · exact hqs s hs
        · simp at hs
          subst hs
          decide
  · exact h

mutual

theorem pathsOk_genChild (dry : Bool) (c : TreeNode) (base r : List String)
    (st : GenState) (hr : ∀ s ∈ r, should_skip s = false) (h : PathsOk base st) :
    PathsOk base (genChild dry c (base ++ r) st) := by
  obtain ⟨nm, isDir, cm, kids⟩ := c
  simp only [genChild]
  split
  · exact h
  · rename_i hskip
    rw [Bool.not_eq_true] at hskip
    have hq : ∀ s ∈ r ++ [nm], should_skip s = false := by
      intro s hs
      rcases List.mem_append.mp hs with hs | hs
      · exact hr s hs
      · simp at hs
        subst hs
        exact hskip
    have hstep : base ++ r ++ [nm] = base ++ (r ++ [nm]) := by simp
    split
    · rw [hstep]
      refine pathsOk_initStep dry ?_ hq
      refine pathsOk_genChildren dry kids base (r ++ [nm]) _ hq ?_
      exact pathsOk_addDir dry h (by simp) hq
    · match cm with
      | some cc =>
        simp only
        split
        · rw [hstep]
          exact pathsOk_addFile dry h (by simp) hq
        · rw [hstep]
          exact pathsOk_addFileComment dry cc h (by simp) hq
      | none =>
        rw [hstep]
        exact pathsOk_addFile dry h (by simp) hq

theorem pathsOk_genChildren (dry : Bool) (cs : List TreeNode) (base r : List String)
    (st : GenState) (hr : ∀ s ∈ r, should_skip s = false) (h : PathsOk base st) :
    PathsOk base (genChildren dry cs (base ++ r) st) := by
  match cs with
  | [] => exact h
  | c :: rest =>
    simp only [genChildren]
    exact pathsOk_genChildren dry rest base r _ hr (pathsOk_genChild dry c base r st hr h)

end

mutual

theorem dryFs_genChild (c : TreeNode) (path : List String) (st : GenState) :
    (genChild true c path st).fs = st.fs := by
  obtain ⟨nm, isDir, cm, kids⟩ := c
  simp only [genChild]
  split
  · rfl
  · split
    · have h2 : (genChildren true kids (path ++ [nm])
          (createDirectory true (path ++ [nm]) st)).fs = st.fs := by
        rw [dryFs_genChildren kids (path ++ [nm]) (createDirectory true (path ++ [nm]) st)]
        rfl
      unfold initStep
      split
      · rename_i hinit
        rw [shouldCreateInitPy] at hinit
        simp at hinit
      · exact h2
    · match cm with
      | some cc =>
        simp only
        split
        · rfl
        · rfl
      | none => rfl

theorem dryFs_genChildren (cs : List TreeNode) (path : List String) (st : GenState) :
    (genChildren true cs path st).fs = st.fs := by
  match cs with
  | [] => rfl
  | c :: rest =>
    simp only [genChildren]
    rw [dryFs_genChildren rest path (genChild true c path st), dryFs_genChild c path st]

end

theorem strMk_toList (s : String) : String.mk s.toList = s := rfl

theorem strToList_append (a b : String) : (a ++ b).toList = a.toList ++ b.toList := rfl

theorem mem_trimList {x : Char} {l : List Char} (h : x ∈ trimList l) : x ∈ l := by
  unfold trimList at h
  rw [List.mem_reverse] at h
  have h2 := List.Sublist.mem h (List.dropWhile_sublist isWS)
  rw [List.mem_reverse] at h2
  exact List.Sublist.mem h2 (List.dropWhile_sublist isWS)

theorem mem_trimStr {x : Char} {s : String} (h : x ∈ (trimStr s).toList) : x ∈ s.toList :=
  mem_trimList h

theorem splitCharList_single {c : Char} : ∀ {l : List Char}, c ∉ l →
    splitCharList c l = [l] := by
  intro l
  induction l with
  | nil => intro h; rfl
  | cons x xs ih =>
    intro h
    have hx : ¬x = c := fun he => h (by rw [he]; exact List.Mem.head _)
    have hxs : c ∉ xs := fun hm => h (List.Mem.tail _ hm)
    simp only [splitCharList, if_neg hx, ih hxs]

theorem splitLines_single {s : String} (h : '\n' ∉ s.toList) : splitLines s = [s] := by
  unfold splitLines
  rw [splitCharList_single h]
  rfl

theorem listStarts_self : ∀ (l : List Char), listStarts l l = true := by
  intro l
  induction l with
  | nil => rfl
  | cons a as ih => simp [listStarts, ih]

theorem listStarts_single_mem {c : Char} : ∀ {l : List Char},
    listStarts [c] l = true → c ∈ l := by
  intro l
  match l with
  | [] => intro h; cases h
  | a :: as =>
    intro h
    simp only [listStarts] at h
    split at h
    · rename_i he
      rw [he]
      exact List.Mem.head _
    · cases h

theorem strEnds_false_of_not_mem {s : String} {c : Char} (h : c ∉ s.toList) :
    strEnds s (String.mk [c]) = false := by
  cases he : strEnds s (String.mk [c]) with
  | false => rfl
  | true =>
    unfold strEnds at he
    have := listStarts_single_mem he
    rw [List.mem_reverse] at this
    exact absurd this h

theorem mem_replFirstAux {x : Char} (pat repl : List Char) : ∀ (l : List Char),
    x ∈ replFirstAux pat repl l → x ∈ l ∨ x ∈ repl := by
  intro l
  induction l with
  | nil =>
    intro h
    simp only [replFirstAux] at h
    split at h
    · exact Or.inr h
    · cases h
  | cons a as ih =>
    intro h
    simp only [replFirstAux] at h
    split at h
    · rcases List.mem_append.mp h with h | h
      · exact Or.inr h
      · exact Or.inl (List.Sublist.mem h (List.drop_sublist pat.length (a :: as)))
    · rcases List.mem_cons.mp h with h | h
      · exact Or.inl (by rw [h]; exact List.Mem.head _)
      · rcases ih h with h | h
        · exact Or.inl (List.Mem.tail _ h)
        · exact Or.inr h

theorem breakAtChar_none_of_not_mem {c : Char} : ∀ {l : List Char}, c ∉ l →
    breakAtChar c l = none := by
  intro l
  induction l with
  | nil => intro h; rfl
  | cons x xs ih =>
    intro h
    have hx : ¬x = c := fun he => h (by rw [he]; exact List.Mem.head _)
    have hxs : c ∉ xs := fun hm => h (List.Mem.tail _ hm)
    simp only [breakAtChar, if_neg hx, ih hxs]
    rfl

theorem breakAtChar_fst_mem {c x : Char} : ∀ {l a b : List Char},
    breakAtChar c l = some (a, b) → x ∈ a → x ∈ l := by
  intro l
  induction l with
  | nil => intro a b h; cases h
  | cons y ys ih =>
    intro a b h hx
    simp only [breakAtChar] at h
    split at h
    · injection h with h2
      injection h2 with ha hb
      subst ha
      cases hx
    · cases hr : breakAtChar c ys with
      | none => rw [hr] at h; cases h
      | some p =>
        rw [hr] at h
        injection h with h2
        injection h2 with ha hb
        subst ha
        rcases List.mem_cons.mp hx with hx2 | hx2
        · rw [hx2]; exact List.Mem.head _
        · exact List.Mem.tail _ (ih hr hx2)

theorem splitHash_fst_mem {x : Char} {s : String} (h : x ∈ (splitHash s).1.toList) :
    x ∈ s.toList := by
  unfold splitHash at h
  cases hb : breakAtChar '#' s.toList with
  | none =>
    rw [hb] at h
    exact h
  | some p =>
    obtain ⟨a, b⟩ := p
    rw [hb] at h
    exact breakAtChar_fst_mem hb h

theorem mem_injectName {x : Char} {l : String} (h : x ∈ (injectName l).toList) :
    x ∈ l.toList := by
  unfold injectName at h
  have h1 := splitHash_fst_mem (mem_trimList h)
  have h2 := mem_trimList h1
  exact List.Sublist.mem h2 (List.dropWhile_sublist isTreeSym)

theorem injectLine_nonl {l : String} (rest : List String) (h : '\n' ∉ l.toList) :
    '\n' ∉ (injectLine l rest).toList := by
  unfold injectLine
  split
  · exact h
  · split
    · intro hmem
      unfold replaceFirst at hmem
      rcases mem_replFirstAux (injectName l).toList (injectName l ++ "/").toList
          l.toList hmem with hm | hm
      · exact h hm
      · rw [strToList_append] at hm
        rcases List.mem_append.mp hm with hm | hm
        · exact h (mem_injectName hm)
        · simp at hm
    · exact h

theorem dropWhile_head_neg {p : Char → Bool} : ∀ {l : List Char},
    (∀ c, l.head? = some c → p c = false) → l.dropWhile p = l := by
  intro l h
  cases l with
  | nil => rfl
  | cons a t =>
    rw [List.dropWhile_cons, if_neg]
    rw [h a rfl]
    simp

theorem trimList_eq_self {l : List Char}
    (h1 : ∀ c, l.head? = some c → isWS c = false)
    (h2 : ∀ c, l.getLast? = some c → isWS c = false) : trimList l = l := by
  unfold trimList
  rw [dropWhile_head_neg h1]
  rw [dropWhile_head_neg (fun c hc => h2 c (by rwa [List.head?_reverse] at hc))]
  exact List.reverse_reverse l

theorem buildStack_nil : buildStack [] = TreeNode.mk "." true none [] := rfl

theorem buildStack_single (d : Int) (n : String) (b : Bool) (cm : Option String) :
    buildStack [(d, n, b, cm)] = TreeNode.mk "." true none [TreeNode.mk n b cm []] := rfl

theorem mem_of_getLast_some {l : List Char} {a : Char} (h : l.getLast? = some a) :
    a ∈ l := by
  rw [← List.head?_reverse] at h
  have hm : a ∈ l.reverse := by
    cases hr : l.reverse with
    | nil => rw [hr] at h; cases h
    | cons x xs =>
      rw [hr] at h
      injection h with h2
      rw [← h2]
      exact List.Mem.head _
  exact List.mem_reverse.mp hm

theorem isWS_false_of_treeSym_false {c : Char} (h : isTreeSym c = false) :
    isWS c = false := by
  cases hw : isWS c
  · rfl
  · unfold isTreeSym at h
    rw [hw] at h
    simp at h

theorem trimBody {body : List Char} {c0 : Char} {cr : List Char}
    (hb : body = c0 :: cr) (hc0 : isTreeSym c0 = false)
    (hlastb : isWS (body.getLastD ' ') = false) : trimList body = body := by
  refine trimList_eq_self ?_ ?_
  · intro c hc
    rw [hb] at hc
    injection hc with h2
    rw [← h2]
    exact isWS_false_of_treeSym_false hc0
  · intro c hc
    rw [List.getLastD_eq_getLast?, hc] at hlastb
    exact hlastb

theorem dropWhile_glyph4 {body : List Char} {c0 : Char} {cr : List Char}
    (hb : body = c0 :: cr) (hc0 : isTreeSym c0 = false) :
    (['└', '─', '─', ' '] ++ body).dropWhile isTreeSym = body := by
  rw [List.cons_append, List.dropWhile_cons, if_pos (by decide)]
  rw [List.cons_append, List.dropWhile_cons, if_pos (by decide)]
  rw [List.cons_append, List.dropWhile_cons, if_pos (by decide)]
  rw [List.cons_append, List.nil_append, List.dropWhile_cons, if_pos (by decide)]
  rw [hb, List.dropWhile_cons, if_neg (by simp [hc0])]

theorem strHasChar_false_of_not_mem {s : String} {c : Char} (h : c ∉ s.toList) :
    strHasChar s c = false := by
  cases hc : strHasChar s c
  · rfl
  · unfold strHasChar at hc
    exact absurd (List.mem_of_elem_eq_true hc) h

theorem stripTrailing_eq_self (p : Char → Bool) (s : String)
    (h : ∀ c, s.toList.getLast? = some c → p c = false) : stripTrailing p s = s := by
  unfold stripTrailing
  rw [dropWhile_head_neg (fun c hc => h c (by rwa [List.head?_reverse] at hc))]
  rw [List.reverse_reverse]
  exact strMk_toList s

/-- Parsing a single glyph-led content line `└── <body>` (already past
the slash-injection pre-pass): the parser builds exactly one file node
whose name is the body with trailing slashes stripped, regardless of
the body's content — only empty and ellipsis bodies are discarded
(excluded here by hypothesis). -/
theorem parse_single_glyph_line (body : List Char) (c0 : Char) (cr : List Char)
    (hb : body = c0 :: cr) (hc0 : isTreeSym c0 = false)
    (hlastb : isWS (body.getLastD ' ') = false)
    (hhashb : '#' ∉ body) (hnlb : '\n' ∉ body)
    (hne1 : body ≠ ['…']) (hne3 : body ≠ ['.', '.', '.']) :
    buildStack (treeEntries (dropDotRoot (splitLines
      (trimStr (String.mk (['└', '─', '─', ' '] ++ body)))))) =
      TreeNode.mk "." true none
        [TreeNode.mk (rstripSlashes (String.mk body)) false none []] := by
  have hbody_ne : body ≠ [] := by rw [hb]; simp
  have htrimb : trimList body = body := trimBody hb hc0 hlastb
  have htrimfull : trimList (['└', '─', '─', ' '] ++ body) =
      ['└', '─', '─', ' '] ++ body := by
    refine trimList_eq_self ?_ ?_
    · intro c hc
      injection hc with h2
      rw [← h2]
      decide
    · intro c hc
      rw [List.getLast?_append_of_ne_nil _ hbody_ne] at hc
      rw [List.getLastD_eq_getLast?, hc] at hlastb
      exact hlastb
  have htrimstr : trimStr (String.mk (['└', '─', '─', ' '] ++ body)) =
      String.mk (['└', '─', '─', ' '] ++ body) := by
    unfold trimStr
    rw [show (String.mk (['└', '─', '─', ' '] ++ body)).toList =
      ['└', '─', '─', ' '] ++ body from rfl, htrimfull]
  have hnl_full : '\n' ∉ ['└', '─', '─', ' '] ++ body := by
    intro hm
    rcases List.mem_append.mp hm with hm | hm
    · simp at hm
    · exact hnlb hm
  rw [htrimstr, splitLines_single hnl_full]
  have hne_dot : ¬trimStr (String.mk (['└', '─', '─', ' '] ++ body)) = "." := by
    rw [htrimstr]
    intro hmk
    have h2 : ['└', '─', '─', ' '] ++ body = ['.'] := congrArg String.toList hmk
    rw [List.cons_append] at h2
    injection h2 with ha hb2
    exact absurd ha (by decide)
  simp only [dropDotRoot]
  rw [if_neg hne_dot]
  have hne_empty : ¬trimStr (String.mk (['└', '─', '─', ' '] ++ body)) = "" := by
    rw [htrimstr]
    intro hmk
    have h2 : ['└', '─', '─', ' '] ++ body = [] := congrArg String.toList hmk
    rw [List.cons_append] at h2
    cases h2
  have hcont : hasContent (String.mk (['└', '─', '─', ' '] ++ body)) = true := by
    unfold hasContent
    show ((['└', '─', '─', ' '] ++ body).any _) = true
    rw [List.cons_append, List.any_cons]
    rw [show (!isWS '└') = true from by decide]
    simp
  have hclean : cleanTreeLine (String.mk (['└', '─', '─', ' '] ++ body)) =
      (String.mk body, none) := by
    unfold cleanTreeLine
    rw [show (String.mk (['└', '─', '─', ' '] ++ body)).toList =
      ['└', '─', '─', ' '] ++ body from rfl]
    rw [dropWhile_glyph4 hb hc0]
    rw [show trimStr (String.mk body) = String.mk body from by
      unfold trimStr; rw [show (String.mk body).toList = body from rfl, htrimb]]
    rw [if_neg (by rw [strHasChar_false_of_not_mem hhashb]; simp)]
  simp only [treeEntries]
  rw [if_neg hne_empty]
  rw [if_neg (by rw [hcont]; simp)]
  rw [hclean]
  rw [if_neg ?hell]
  case hell =>
    rintro (he | he | he)
    · exact hne1 (congrArg String.toList he)
    · exact hne3 (congrArg String.toList he)
    · exact hbody_ne (congrArg String.toList he)
  rfl

theorem trimGlyphFull {body : List Char} {c0 : Char} {cr : List Char}
    (hb : body = c0 :: cr) (hlastb : isWS (body.getLastD ' ') = false) :
    trimStr (String.mk (['└', '─', '─', ' '] ++ body)) =
      String.mk (['└', '─', '─', ' '] ++ body) := by
  have hbody_ne : body ≠ [] := by rw [hb]; simp
  unfold trimStr
  rw [show (String.mk (['└', '─', '─', ' '] ++ body)).toList =
    ['└', '─', '─', ' '] ++ body from rfl]
  rw [trimList_eq_self ?_ ?_]
  · intro c hc
    injection hc with h2
    rw [← h2]
    decide
  · intro c hc
    rw [List.getLast?_append_of_ne_nil _ hbody_ne] at hc
    rw [List.getLastD_eq_getLast?, hc] at hlastb
    exact hlastb

theorem replFirst_glyph {nm : List Char} {c0 : Char} {cr : List Char}
    (h : nm = c0 :: cr) (hc0 : isTreeSym c0 = false) (repl : List Char) :
    replFirstAux nm repl (['└', '─', '─', ' '] ++ nm) =
      ['└', '─', '─', ' '] ++ repl := by
  have step : ∀ (g : Char) (X : List Char), isTreeSym g = true →
      replFirstAux nm repl (g :: X) = g :: replFirstAux nm repl X := by
    intro g X hg
    simp only [replFirstAux]
    rw [if_neg]
    intro hls
    rw [h] at hls
    simp only [listStarts] at hls
    rw [if_neg (fun he => by rw [he, hg] at hc0; cases hc0)] at hls
    cases hls
  have final : replFirstAux nm repl nm = repl := by
    rw [h]
    simp only [replFirstAux]
    rw [if_pos (listStarts_self _)]
    rw [← h, List.drop_length, List.append_nil]
  rw [show ['└', '─', '─', ' '] ++ nm = '└' :: '─' :: '─' :: ' ' :: nm from rfl]
  rw [step '└' _ (by decide), step '─' _ (by decide), step '─' _ (by decide),
    step ' ' _ (by decide), final]
  rfl

/-- C5, counterexample: a line whose content reduces to a
parenthesized annotation produces a node named by the annotation, and
a line whose comment is the word `ignored` also produces a node — the
claim says both should be discarded with no node at all. -/
theorem c5_discard_cex :
    (parse_tree_format "└── (generated)").children.map
      (fun c => (c.name, c.is_directory, c.comment)) = [("(generated)", false, none)] ∧
    (parse_tree_format "├── a.txt  # ignored\n└── b.txt").children.map
      (fun c => (c.name, c.comment)) = [("a.txt", some "ignored"), ("b.txt", none)] :=
  ⟨rfl, rfl⟩

/-- C5, amended: the tree-drawing parser discards only lines reducing
to empty or to a bare ellipsis; any other single content line — in
particular a parenthesized annotation such as `(generated)` or a name
containing `ignored` — produces exactly one node carrying that
content as its name. -/
theorem c5_annotation_kept (nm : String)
    (hhead : isTreeSym (nm.toList.headD '─') = false)
    (hlast : isWS (nm.toList.getLastD ' ') = false)
    (hhash : '#' ∉ nm.toList) (hnl : '\n' ∉ nm.toList)
    (hslash : '/' ∉ nm.toList) (hbs : '\\' ∉ nm.toList)
    (hell : nm ≠ "...") :
    (parse_tree_format ("└── " ++ nm)).children = [TreeNode.mk nm false none []] := by
  obtain ⟨c0, cr, hl⟩ : ∃ c0 cr, nm.toList = c0 :: cr := by
    cases hl : nm.toList with
    | nil => rw [hl] at hhead; exact absurd hhead (by decide)
    | cons a b => exact ⟨a, b, rfl⟩
  have hc0 : isTreeSym c0 = false := by rw [hl] at hhead; exact hhead
  have hLmk : ("└── " ++ nm) = String.mk (['└', '─', '─', ' '] ++ nm.toList) := rfl
  have htrimL : trimStr ("└── " ++ nm) = "└── " ++ nm := by
    rw [hLmk]
    exact trimGlyphFull hl hlast
  have hnlL : '\n' ∉ ("└── " ++ nm).toList := by
    rw [strToList_append]
    intro hm
    rcases List.mem_append.mp hm with hm | hm
    · simp at hm
    · exact hnl hm
  have hinj : injectSlashesTree ("└── " ++ nm) = injectLine ("└── " ++ nm) [] := by
    unfold injectSlashesTree
    rw [htrimL, splitLines_single hnlL]
    rfl
  have hcontL : hasContent ("└── " ++ nm) = true := by
    unfold hasContent
    rw [strToList_append]
    rw [show ("└── " : String).toList = ['└', '─', '─', ' '] from rfl]
    rw [List.cons_append, List.any_cons]
    rw [show (!isWS '└') = true from by decide]
    simp
  have htrimnm : trimStr nm = nm := by
    unfold trimStr
    rw [trimBody hl hc0 hlast]
    exact strMk_toList nm
  have hname : injectName ("└── " ++ nm) = nm := by
    unfold injectName
    rw [hLmk]
    rw [show (String.mk (['└', '─', '─', ' '] ++ nm.toList)).toList =
      ['└', '─', '─', ' '] ++ nm.toList from rfl]
    rw [dropWhile_glyph4 hl hc0]
    rw [show trimStr (String.mk nm.toList) = nm from htrimnm]
    unfold splitHash
    rw [show nm.toList = nm.toList from rfl, breakAtChar_none_of_not_mem hhash]
    exact htrimnm
  have hends : strEnds nm "/" = false := strEnds_false_of_not_mem hslash
  have hstripnm : rstripSlashes nm = nm := by
    unfold rstripSlashes
    refine stripTrailing_eq_self _ nm ?_
    intro c hc
    have hcm := mem_of_getLast_some hc
    have h1 : ¬c = '/' := fun he => hslash (he ▸ hcm)
    have h2 : ¬c = '\\' := fun he => hbs (he ▸ hcm)
    simp [h1, h2]
  by_cases hdot : strHasChar nm '.' = true
  · have hne1 : nm.toList ≠ ['…'] := by
      intro he
      have hdm := List.mem_of_elem_eq_true hdot
      rw [he] at hdm
      simp at hdm
    have hne3 : nm.toList ≠ ['.', '.', '.'] := by
      intro he
      exact hell (by rw [← strMk_toList nm, he])
    have hline : injectLine ("└── " ++ nm) [] = ("└── " ++ nm) := by
      unfold injectLine
      rw [if_neg (by rw [hcontL]; simp)]
      rw [hname, hends, hdot]
      rw [if_neg (by simp [injectLookahead])]
    unfold parse_tree_format
    rw [hinj, hline, hLmk]
    rw [parse_single_glyph_line nm.toList c0 cr hl hc0 hlast hhash hnl hne1 hne3]
    rw [show TreeNode.children (TreeNode.mk "." true none
      [TreeNode.mk (rstripSlashes (String.mk nm.toList)) false none []]) =
      [TreeNode.mk (rstripSlashes (String.mk nm.toList)) false none []] from rfl]
    rw [show String.mk nm.toList = nm from strMk_toList nm, hstripnm]
  · have hdot2 : strHasChar nm '.' = false := by
      cases h : strHasChar nm '.'
      · rfl
      · exact absurd h hdot
    have hline : injectLine ("└── " ++ nm) [] =
        replaceFirst ("└── " ++ nm) nm (nm ++ "/") := by
      unfold injectLine
      rw [if_neg (by rw [hcontL]; simp)]
      rw [hname, hends, hdot2]
      rw [if_pos (by simp [injectLookahead])]
    have hrepl : replaceFirst ("└── " ++ nm) nm (nm ++ "/") =
        String.mk (['└', '─', '─', ' '] ++ (nm.toList ++ ['/'])) := by
      unfold replaceFirst
      rw [show ("└── " ++ nm).toList = ['└', '─', '─', ' '] ++ nm.toList from rfl]
      rw [show (nm ++ "/").toList = nm.toList ++ ['/'] from rfl]
      rw [replFirst_glyph hl hc0]
    have hb2 : nm.toList ++ ['/'] = c0 :: (cr ++ ['/']) := by
      rw [hl]
      rfl
    have hlast2 : isWS ((nm.toList ++ ['/']).getLastD ' ') = false := by
      rw [List.getLastD_eq_getLast?, List.getLast?_concat]
      decide
    have hhash2 : '#' ∉ nm.toList ++ ['/'] := by
      intro hm
      rcases List.mem_append.mp hm with hm | hm
      · exact hhash hm
      · simp at hm
    have hnl2 : '\n' ∉ nm.toList ++ ['/'] := by
      intro hm
      rcases List.mem_append.mp hm with hm | hm
      · exact hnl hm
      · simp at hm
    have hne1 : nm.toList ++ ['/'] ≠ ['…'] := by
      intro he
      have h2 := congrArg List.getLast? he
      rw [List.getLast?_concat] at h2
      simp at h2
    have hne3 : nm.toList ++ ['/'] ≠ ['.', '.', '.'] := by
      intro he
      have h2 := congrArg List.getLast? he
      rw [List.getLast?_concat] at h2
      simp at h2
    have hstrip2 : rstripSlashes (String.mk (nm.toList ++ ['/'])) = nm := by
      unfold rstripSlashes stripTrailing
      rw [show (String.mk (nm.toList ++ ['/'])).toList = nm.toList ++ ['/'] from rfl]
      rw [List.reverse_concat]
      rw [List.dropWhile_cons, if_pos (by decide)]
      rw [dropWhile_head_neg (fun c hc => ?_)]
      · rw [List.reverse_reverse]
        exact strMk_toList nm
      · rw [List.head?_reverse] at hc
        have hcm := mem_of_getLast_some hc
        have h1 : ¬c = '/' := fun he => hslash (he ▸ hcm)
        have h2 : ¬c = '\\' := fun he => hbs (he ▸ hcm)
        simp [h1, h2]
    unfold parse_tree_format
    rw [hinj, hline, hrepl]
    rw [parse_single_glyph_line (nm.toList ++ ['/']) c0 (cr ++ ['/']) hb2 hc0 hlast2
      hhash2 hnl2 hne1 hne3]
    rw [show TreeNode.children (TreeNode.mk "." true none
      [TreeNode.mk (rstripSlashes (String.mk (nm.toList ++ ['/']))) false none []]) =
      [TreeNode.mk (rstripSlashes (String.mk (nm.toList ++ ['/']))) false none []]
      from rfl]
    rw [hstrip2]

/-- C5, witness: the parenthesized annotation line `└── (ignored file)`
(which also contains the `ignored` marker) is kept and produces a
node. -/
theorem c5_annotation_kept_witness :
    (parse_tree_format ("└── " ++ "(ignored file)")).children =
      [TreeNode.mk "(ignored file)" false none []] :=
  c5_annotation_kept "(ignored file)" (by decide) (by decide) (by decide) (by decide)
    (by decide) (by decide) (by decide)

/-- C2, amended: in the tree-drawing parser a node's kind comes only
from the next-content-line lookahead, never from a trailing slash.  In
particular, for ANY single-line input (no newline) every produced node
is a file node, trailing slash or not. -/
theorem c2_single_line_files (s : String) (h : '\n' ∉ s.toList) :
    (parse_tree_format s).children.all (fun c => !c.is_directory) = true := by
  have h1 : '\n' ∉ (trimStr s).toList := fun hx => h (mem_trimList hx)
  have h3 : injectSlashesTree s = injectLine (trimStr s) [] := by
    unfold injectSlashesTree
    rw [splitLines_single h1]
    rfl
  have h5 : '\n' ∉ (trimStr (injectLine (trimStr s) [])).toList :=
    fun hx => injectLine_nonl [] h1 (mem_trimList hx)
  unfold parse_tree_format
  rw [h3, splitLines_single h5]
  generalize trimStr (injectLine (trimStr s) []) = v
  simp only [dropDotRoot]
  split
  · rfl
  · simp only [treeEntries]
    split
    · rfl
    · split
      · rfl
      · split
        · rfl
        · rfl

/-- C2, witness: `└── api/` (trailing slash, nothing below) parses to
file nodes only. -/
theorem c2_single_line_files_witness :
    (parse_tree_format "└── api/").children.all (fun c => !c.is_directory) = true :=
  c2_single_line_files "└── api/" (by decide)

/-- C1, counterexample: materializing the three-line tree-drawing
document into an empty base directory does not produce a created-files
report consisting of exactly the two entries `.../api/routes.py` and
`.../main.py`: the package-marker step also records
`.../api/__init__.py`. -/
theorem c1_files_cex :
    (runGenerate false ["out"]
      (parse_tree_format "├── api/\n│   └── routes.py\n└── main.py")
      emptyFS).created_files ≠ ["out/api/routes.py", "out/main.py"] := by
  decide

/-- C1, amended: the document parses to a root with directory `api`
(single file child `routes.py`) and file `main.py`, and materializing
into an empty base yields `created_dirs = [out/api]` and
`created_files = [out/api/routes.py, out/api/__init__.py, out/main.py]`
(the `__init__.py` package marker is appended because `api` then holds
a `.py` file), with nothing skipped. -/
theorem c1_scenario :
    parse_tree_format "├── api/\n│   └── routes.py\n└── main.py" =
      TreeNode.mk "." true none
        [TreeNode.mk "api" true none [TreeNode.mk "routes.py" false none []],
         TreeNode.mk "main.py" false none []] ∧
    (runGenerate false ["out"]
      (parse_tree_format "├── api/\n│   └── routes.py\n└── main.py")
      emptyFS).created_dirs = ["out/api"] ∧
    (runGenerate false ["out"]
      (parse_tree_format "├── api/\n│   └── routes.py\n└── main.py")
      emptyFS).created_files =
        ["out/api/routes.py", "out/api/__init__.py", "out/main.py"] ∧
    (runGenerate false ["out"]
      (parse_tree_format "├── api/\n│   └── routes.py\n└── main.py")
      emptyFS).skipped_items = [] :=
  ⟨rfl, rfl, rfl, rfl⟩

/-- C2, counterexample: the single line `└── api/` carries a trailing
slash but, with no deeper line below it, parses to a FILE node named
`api`, not a directory. -/
theorem c2_slash_cex :
    (parse_tree_format "└── api/").children.map
        (fun c => (c.name, c.is_directory)) = [("api", false)] ∧
    (parse_tree_format "└── api/").children.all TreeNode.is_directory = false := by
  constructor
  · rfl
  · rfl

/-- C3, counterexample: `.env.local` contains a separator in a
non-first position, yet the heuristic judges it to have no extension,
and the indented-outline parser classifies it as a directory, not a
file. -/
theorem c3_dotfile_cex :
    has_extension ".env.local" = false ∧
    (parse_simple_format ".env.local").children.map
      (fun c => (c.name, c.is_directory)) = [(".env.local", true)] := by
  constructor
  · rfl
  · rfl

/-- C3, amended: a name containing a separator and not starting with
one has an extension; a dot-initial name has an extension exactly when
it contains a single separator in total (so `.gitignore` is a file
while `.env.local` is a directory). -/
theorem c3_extension_rule :
    (∀ f : String, strHasChar f '.' = true → strStarts f "." = false →
      has_extension f = true) ∧
    (∀ f : String, strStarts f "." = true →
      (has_extension f = true ↔ dotCount f = 1)) ∧
    (parse_simple_format ".env.local").children.map TreeNode.is_directory = [true] ∧
    (parse_simple_format ".gitignore").children.map TreeNode.is_directory = [false] := by
  refine ⟨?_, ?_, rfl, rfl⟩
  · intro f hdot hstart
    unfold has_extension
    rw [hstart]
    simp [hdot]
  · intro f hstart
    unfold has_extension
    rw [hstart]
    by_cases hc : dotCount f = 1
    · simp [hc]
    · simp [hc, hstart]

/-- C3, witness for the amended rule. -/
theorem c3_extension_rule_witness :
    has_extension "a.py" = true ∧
    (has_extension ".gitignore" = true ↔ dotCount ".gitignore" = 1) :=
  ⟨c3_extension_rule.1 "a.py" (by decide) (by decide),
   c3_extension_rule.2.1 ".gitignore" (by decide)⟩

/-- C4, counterexample: a document whose trimmed text begins with the
mapping-style key token `src:` (and no glyph-led line) is
auto-detected as `simple`, not as the structured-data notation. -/
theorem c4_detect_cex :
    (splitLines (trimStr "src:\n    main.py")).any startsTreeGlyph = false ∧
    strStarts (trimStr "src:\n    main.py") "src:" = true ∧
    autoDetectFormat "src:\n    main.py" ≠ "yaml" ∧
    autoDetectFormat "src:\n    main.py" = "simple" := by
  refine ⟨rfl, rfl, ?_, rfl⟩
  decide

/-- C4, amended: only the two literal key tokens `name:` and
`structure:` (besides `-`, `curly brace` and `bracket` starts) make
auto-detection choose the structured-data notation: with no glyph-led
line and a trimmed text starting with one of those two tokens, the
detector returns `yaml`. -/
theorem c4_detect_yaml (content : String)
    (hglyph : (splitLines (trimStr content)).any startsTreeGlyph = false)
    (hkey : strStarts (trimStr content) "name:" = true ∨
      strStarts (trimStr content) "structure:" = true) :
    autoDetectFormat content = "yaml" := by
  unfold autoDetectFormat
  rw [hglyph]
  rcases hkey with h | h <;> simp [h]


/-- C4, witness. -/
theorem c4_detect_yaml_witness : autoDetectFormat "name: .\nchildren: []" = "yaml" :=
  c4_detect_yaml _ (by decide) (Or.inl (by decide))

/-- C6, counterexample: for the tree whose root holds directory
`__pycache__` containing file `app.log`, the generator records only
`__pycache__` as skipped; the skip-named node `app.log` is never
visited, so its name is NOT recorded in the skipped-items list. -/
theorem c6_nested_skip_cex :
    should_skip "app.log" = true ∧
    (runGenerate false ["o"]
      (TreeNode.mk "." true none
        [TreeNode.mk "__pycache__" true none
          [TreeNode.mk "app.log" false none []]])
      emptyFS).skipped_items = ["__pycache__"] ∧
    "app.log" ∉ (runGenerate false ["o"]
      (TreeNode.mk "." true none
        [TreeNode.mk "__pycache__" true none
          [TreeNode.mk "app.log" false none []]])
      emptyFS).skipped_items := by
  refine ⟨rfl, rfl, ?_⟩
  decide

/-- C7, counterexample: the tree with the single child `__pycache__`
is non-empty, yet a dry-run generate yields EMPTY created-directories
and created-files reports (everything is skipped). -/
theorem c7_dry_cex :
    (TreeNode.mk "." true none [TreeNode.mk "__pycache__" true none []]).children.length = 1 ∧
    (runGenerate true ["o"]
      (TreeNode.mk "." true none [TreeNode.mk "__pycache__" true none []])
      emptyFS).created_dirs = [] ∧
    (runGenerate true ["o"]
      (TreeNode.mk "." true none [TreeNode.mk "__pycache__" true none []])
      emptyFS).created_files = [] :=
  ⟨rfl, rfl, rfl⟩

/-- C8, counterexample: the report dictionary returned by `generate`
has no key named `created_directories`; the directory list is keyed
`created_dirs`. -/
theorem c8_keys_cex :
    "created_directories" ∉
      (generate false ["o"] (TreeNode.mk "." true none []) emptyFS).map Prod.fst ∧
    (generate false ["o"] (TreeNode.mk "." true none []) emptyFS).map Prod.fst =
      ["created_files", "created_dirs", "skipped_items"] := by
  refine ⟨?_, rfl⟩
  decide

/-- C8, amended: every `generate` call returns a report with exactly
the three keys `created_files`, `created_dirs`, `skipped_items` (in
that insertion order), bound to the three ordered lists accumulated by
the run in operation order. -/
theorem c8_report_shape (dry : Bool) (base : List String) (t : TreeNode) (fs0 : FS) :
    (generate dry base t fs0).map Prod.fst =
      ["created_files", "created_dirs", "skipped_items"] ∧
    (generate dry base t fs0).length = 3 ∧
    generate dry base t fs0 =
      [("created_files", (runGenerate dry base t fs0).created_files),
       ("created_dirs", (runGenerate dry base t fs0).created_dirs),
       ("skipped_items", (runGenerate dry base t fs0).skipped_items)] :=
  ⟨rfl, rfl, rfl⟩

/-- C6, amended: (a) whenever the generator reaches a node (its
ancestors form a chain of non-skipped directory children) whose name
matches the skip policy — in particular `__pycache__` or `*.log` —
that node's bare name is recorded in `skipped_items`; (b) every path
recorded in `created_dirs` or `created_files` lies strictly below the
base through non-skipped segments only, so no path of a skip-named
node or of any of its descendants is ever recorded.  (Skip-named nodes
nested below a skipped or file node are never visited and are not
recorded — see the counterexample.) -/
theorem c6_skip_policy (dry : Bool) (base : List String) (fs0 : FS) (t : TreeNode)
    (c : TreeNode) (r : List String) (hchain : ChainTo t.children r c)
    (hskip : should_skip c.name = true) :
    c.name ∈ (runGenerate dry base t fs0).skipped_items ∧
    ∀ p ∈ (runGenerate dry base t fs0).created_dirs ++
        (runGenerate dry base t fs0).created_files,
      ∃ q, p = strOfPath (base ++ q) ∧ q ≠ [] ∧ ∀ s ∈ q, should_skip s = false := by
  constructor
  · exact chainTo_skipped dry hchain hskip base _
  · have h0 : PathsOk base
        ({ fs := if dry then fs0 else fs0.mkdirParents base, created_files := [],
           created_dirs := [], skipped_items := [] } : GenState) := by
      intro p hp
      simp at hp
    have hall := pathsOk_genChildren dry t.children base [] _
      (by intro s hs; cases hs) h0
    rw [List.append_nil] at hall
    exact hall

/-- C6, witness. -/
theorem c6_skip_policy_witness :
    "__pycache__" ∈ (runGenerate false ["o"]
      (TreeNode.mk "." true none [TreeNode.mk "__pycache__" true none []])
      emptyFS).skipped_items :=
  (c6_skip_policy false ["o"] emptyFS _ (TreeNode.mk "__pycache__" true none []) []
    (ChainTo.here (List.Mem.head _)) (by decide)).1

/-- C7, amended: a dry-run generate performs no filesystem mutation at
all (the modelled backing store is returned unchanged — no base
directory, directory, file, package marker or content is created), and
for every tree with at least one child NOT matched by the skip policy
the combined created-directories/created-files report is non-empty.
(A non-empty tree whose children are all skip-named yields empty
created reports — see the counterexample.) -/
theorem c7_dry_run_frame (base : List String) (t : TreeNode) (fs0 : FS)
    (h : ∃ c ∈ t.children, should_skip c.name = false) :
    (runGenerate true base t fs0).fs = fs0 ∧
    (runGenerate true base t fs0).created_dirs ++
      (runGenerate true base t fs0).created_files ≠ [] := by
  constructor
  · exact dryFs_genChildren t.children base _
  · obtain ⟨c, hc, hskip⟩ := h
    cases hdir : c.is_directory with
    | false =>
      intro hemp
      have hmm := genChildren_mem_file true hc hskip hdir base
        { fs := fs0, created_files := [], created_dirs := [], skipped_items := [] }
      have hmem : strOfPath (base ++ [c.name]) ∈
          (runGenerate true base t fs0).created_dirs ++
          (runGenerate true base t fs0).created_files :=
        List.mem_append.mpr (Or.inr hmm)
      rw [hemp] at hmem
      exact List.not_mem_nil _ hmem
    | true =>
      intro hemp
      have hmm := genChildren_mem_dir true hc hskip hdir base
        { fs := fs0, created_files := [], created_dirs := [], skipped_items := [] }
      have hmem : strOfPath (base ++ [c.name]) ∈
          (runGenerate true base t fs0).created_dirs ++
          (runGenerate true base t fs0).created_files :=
        List.mem_append.mpr (Or.inl hmm)
      rw [hemp] at hmem
      exact List.not_mem_nil _ hmem

/-- C7, witness. -/
theorem c7_dry_run_frame_witness :
    (runGenerate true ["o"]
      (TreeNode.mk "." true none [TreeNode.mk "main.py" false none []])
      emptyFS).fs = emptyFS :=
  (c7_dry_run_frame ["o"] _ emptyFS
    ⟨TreeNode.mk "main.py" false none [], List.Mem.head _, by decide⟩).1

/-- C10: for every node the generator reaches whose name is not
skip-matched, the node's full path string is appended to
`created_dirs` (directory kind) or `created_files` (file kind)
regardless of the initial state of the backing store — in particular
even when that directory or file already exists, so the report follows
the tree walk, not the actual filesystem changes. -/
theorem c10_report_tree_walk (dry : Bool) (base : List String) (fs0 : FS)
    (t : TreeNode) (c : TreeNode) (r : List String)
    (hchain : ChainTo t.children r c) (hskip : should_skip c.name = false) :
    (c.is_directory = true →
      strOfPath (base ++ r ++ [c.name]) ∈ (runGenerate dry base t fs0).created_dirs) ∧
    (c.is_directory = false →
      strOfPath (base ++ r ++ [c.name]) ∈ (runGenerate dry base t fs0).created_files) :=
  ⟨fun hdir => chainTo_dir dry hchain hskip hdir base _,
   fun hdir => chainTo_file dry hchain hskip hdir base _⟩

/-- C10, witness: the file `o/main.py` already exists on the backing
store, and its path is still reported as created. -/
theorem c10_report_tree_walk_witness :
    strOfPath (["o"] ++ [] ++ ["main.py"]) ∈ (runGenerate false ["o"]
      (TreeNode.mk "." true none [TreeNode.mk "main.py" false none []])
      { dirs := [["o"]], files := [(["o", "main.py"], "old")] }).created_files :=
  (c10_report_tree_walk false ["o"]
    { dirs := [["o"]], files := [(["o", "main.py"], "old")] } _
    (TreeNode.mk "main.py" false none []) []
    (ChainTo.here (List.Mem.head _)) (by decide)).2 rfl

theorem attachFrame_fields (c p : Frame) :
    (attachFrame c p).fname = p.fname ∧ (attachFrame c p).fdir = p.fdir :=
  ⟨rfl, rfl⟩

theorem popFramesGo_root (d : Int) : ∀ (fs : List Frame) (f r : Frame),
    ((popFramesGo d f fs r).2).fname = r.fname ∧
    ((popFramesGo d f fs r).2).fdir = r.fdir := by
  intro fs
  induction fs with
  | nil =>
    intro f r
    simp only [popFramesGo]
    split
    · exact ⟨rfl, rfl⟩
    · exact ⟨rfl, rfl⟩
  | cons g gs ih =>
    intro f r
    simp only [popFramesGo]
    split
    · exact ih (attachFrame f g) r
    · exact ⟨rfl, rfl⟩

theorem popFrames_root (d : Int) (u : List Frame) (r : Frame) :
    ((popFrames d u r).2).fname = r.fname ∧ ((popFrames d u r).2).fdir = r.fdir := by
  cases u with
  | nil => exact ⟨rfl, rfl⟩
  | cons f fs => exact popFramesGo_root d fs f r

theorem foldlPush_root : ∀ (es : List (Int × String × Bool × Option String))
    (u : List Frame) (r : Frame),
    ((es.foldl pushEntry (u, r)).2).fname = r.fname ∧
    ((es.foldl pushEntry (u, r)).2).fdir = r.fdir := by
  intro es
  induction es with
  | nil => intro u r; exact ⟨rfl, rfl⟩
  | cons e rest ih =>
    intro u r
    rw [List.foldl_cons]
    have hpop := popFrames_root e.1 u r
    have hih := ih (pushEntry (u, r) e).1 (pushEntry (u, r) e).2
    constructor
    · rw [hih.1]
      exact hpop.1
    · rw [hih.2]
      exact hpop.2

theorem collapseInto_root : ∀ (fs : List Frame) (f r : Frame),
    (collapseInto f fs r).fname = r.fname ∧ (collapseInto f fs r).fdir = r.fdir := by
  intro fs
  induction fs with
  | nil => intro f r; exact ⟨rfl, rfl⟩
  | cons g gs ih => intro f r; exact ih (attachFrame f g) r

theorem collapseAll_root (u : List Frame) (r : Frame) :
    (collapseAll u r).fname = r.fname ∧ (collapseAll u r).fdir = r.fdir := by
  cases u with
  | nil => exact ⟨rfl, rfl⟩
  | cons f fs => exact collapseInto_root fs f r

theorem buildStack_root (es : List (Int × String × Bool × Option String)) :
    (buildStack es).name = "." ∧ (buildStack es).is_directory = true := by
  unfold buildStack
  have h1 := collapseAll_root (es.foldl pushEntry ([], rootFrame)).1
    (es.foldl pushEntry ([], rootFrame)).2
  have h2 := foldlPush_root es [] rootFrame
  constructor
  · show (collapseAll _ _).fname = "."
    rw [h1.1, h2.1]
    rfl
  · show (collapseAll _ _).fdir = true
    rw [h1.2, h2.2]
    rfl

/-- C9, amended: the tree-drawing and indented parsers always return a
root named `.` of directory kind, and the structured-data importer
always returns a directory-kind root; but for a pre-serialized node
document (a mapping carrying a `name` key) the root is named by the
serialized name rather than `.`. -/
theorem c9_root_shape :
    (∀ s : String, (parse_tree_format s).name = "." ∧
      (parse_tree_format s).is_directory = true) ∧
    (∀ s : String, (parse_simple_format s).name = "." ∧
      (parse_simple_format s).is_directory = true) ∧
    (∀ y : Yaml, (parseYamlNode y ".").is_directory = true) ∧
    (∀ y : Yaml, isSerializedMap y = false → (parseYamlNode y ".").name = ".") := by
  refine ⟨fun s => buildStack_root _, fun s => buildStack_root _, ?_, ?_⟩
  · intro y
    match y with
    | .kvs es =>
      simp only [parseYamlNode]
      split
      · rfl
      · rfl
    | .seq xs => simp only [parseYamlNode]; rfl
    | .scalar s => simp only [parseYamlNode]; rfl
  · intro y hser
    match y with
    | .kvs es =>
      simp only [isSerializedMap] at hser
      simp only [parseYamlNode]
      rw [hser]
      rfl
    | .seq xs => simp only [parseYamlNode]; rfl
    | .scalar s => simp only [parseYamlNode]; rfl

/-- C9, witness for the amended claim. -/
theorem c9_root_shape_witness :
    (parseYamlNode (Yaml.seq []) ".").name = "." :=
  c9_root_shape.2.2.2 (Yaml.seq []) rfl

/-- C9, counterexample: importing the pre-serialized node document
with `name` bound to `src` yields a tree rooted at a node named `src`,
not at the synthetic root `.`. -/
theorem c9_root_cex :
    (parseYamlNode (Yaml.kvs [("name", Yaml.scalar "src"), ("children", Yaml.seq [])])
      ".").name ≠ "." ∧
    (parseYamlNode (Yaml.kvs [("name", Yaml.scalar "src"), ("children", Yaml.seq [])])
      ".").name = "src" := by
  have h : parseYamlNode
      (Yaml.kvs [("name", Yaml.scalar "src"), ("children", Yaml.seq [])]) "." =
      TreeNode.mk "src" true none [] := by
    rw [parseYamlNode]
    simp [lookupKey, yamlNameOf, serializedKids, parseYamlList]
  rw [h]
  exact ⟨by decide, rfl⟩

end FolderTree
